import Mathlib

/-
Verification of the root-finding core of the equation-solver app
(`bisection_method` and `find_all_roots` in app.py).

Modelling choices:
* Real arithmetic is embedded over `ℚ` (exact arithmetic; the source's
  comparisons, midpoints and products are carried over verbatim).
* Every definition threads an explicit counter of how many times the
  user-supplied function `f` is evaluated; "f is never called" is stated
  as "the counter is 0".
* The Python `for iter_count in range(1, max_iter + 1)` loop is embedded
  as structural recursion on the remaining iteration budget
  (`max_iter.toNat` iterations, matching the empty range for
  `max_iter ≤ 0`).  Reading the midpoint variable `c` before the loop has
  ever assigned it (Python's UnboundLocalError) is modelled as
  `Except.error ()`.
* The scanner's `while x_current < x_max` loop is embedded with a fuel
  parameter set to `⌈(x_max - x_min)/step⌉.toNat`, the exact number of
  iterations the loop performs when `step > 0`; running out of fuel while
  `x_current < x_max` still holds (which happens exactly when the Python
  loop would run forever, i.e. `step ≤ 0` with a nonempty range) yields
  `none`, the divergence marker.
* String formatting of numbers (Python's `:.8f` etc.) is abstracted by
  `toString`; the fixed message texts are kept as in the source (ASCII
  quotes around variable names in the invalid-bracket message are
  dropped).
-/

namespace EqSolver

deriving instance DecidableEq for Except

/-- Message returned when the bracket is invalid (`a >= b`), app.py line 52. -/
def invalidBracketMsg : String := "Error: Lower bound a must be less than upper bound b."

/-- Message returned when the tolerance is invalid (`tol <= 0`), app.py line 55. -/
def invalidTolMsg : String := "Error: Tolerance must be positive."

/-- Message returned when the root is found at the lower bound, app.py line 61. -/
def lowerBoundMsg : String := "Root found at lower bound."

/-- Message returned when the root is found at the upper bound, app.py line 63. -/
def upperBoundMsg : String := "Root found at upper bound."

/-- Message returned when the endpoints have the same sign, app.py line 67. -/
def noSignChangeMsg : String := "No root found: function has same sign at endpoints."

/-- Message returned on convergence, app.py line 77. -/
def convergedMsg (k : ℕ) : String := "Converged after " ++ toString k ++ " iterations"

/-- Message returned on the max-iteration fallback, app.py line 85. -/
def maxIterMsg : String := "Maximum iterations reached"

/-- Summary message when the scanner finds no roots, app.py line 122. -/
def noRootsMsg : String := "No roots found. Try adjusting search range."

/-- Summary message when the scanner finds roots, app.py line 120. -/
def foundMsg (n : ℕ) (x_min x_max : ℚ) : String :=
  "Found " ++ toString n ++ " root(s) in range [" ++ toString x_min ++ ", " ++ toString x_max ++ "]"

/-- Per-root log line appended by the scanner, app.py line 115. -/
def rootMsg (n : ℕ) (root : ℚ) (status : String) : String :=
  "Root " ++ toString n ++ ": x = " ++ toString root ++ " | " ++ status

/-- Midpoint of the bracket held in a loop state `(a, b, fa, fb)`, app.py line 72. -/
def midpt (s : ℚ × ℚ × ℚ × ℚ) : ℚ := (s.1 + s.2.1) / 2

/-- One bracket-update step of the bisection loop (app.py lines 72, 80-83):
compute the midpoint `c = (a+b)/2` and `fc = f c`; if `fa * fc < 0` keep
`[a, c]`, otherwise keep `[c, b]`. -/
def bisectStep (f : ℚ → ℚ) (s : ℚ × ℚ × ℚ × ℚ) : ℚ × ℚ × ℚ × ℚ :=
  let c := (s.1 + s.2.1) / 2
  let fc := f c
  if s.2.2.1 * fc < 0 then (s.1, c, s.2.2.1, fc) else (c, s.2.1, fc, s.2.2.2)

/-- The main loop of `bisection_method` (app.py lines 70-85).  `fuel` is the
number of iterations left, `k` the 1-based index of the current iteration,
`s = (a, b, fa, fb)` the current bracket state, `lastC` the last midpoint
assigned so far (`none` before the first iteration).  Returns the source's
`(root, iterations, message)` triple inside `Except` — `Except.error ()`
models reading `c` before any loop iteration assigned it — paired with the
number of evaluations of `f` performed by the loop. -/
def bisectLoop (f : ℚ → ℚ) (tol : ℚ) (maxIter : ℤ) :
    ℕ → ℕ → ℚ × ℚ × ℚ × ℚ → Option ℚ → (Except Unit (Option ℚ × ℕ × String)) × ℕ
  | 0, _, _, none => (Except.error (), 0)
  | 0, _, _, some c => (Except.ok (some c, maxIter.toNat, maxIterMsg), 0)
  | fuel + 1, k, s, _ =>
      let c := midpt s
      if |f c| < tol then
        (Except.ok (some c, k, convergedMsg k), 1)
      else
        ((bisectLoop f tol maxIter fuel (k + 1) (bisectStep f s) (some c)).1,
         (bisectLoop f tol maxIter fuel (k + 1) (bisectStep f s) (some c)).2 + 1)

/-- Embedding of `bisection_method` (app.py lines 46-85).  The second
component of the result counts evaluations of `f`. -/
def bisection_method (f : ℚ → ℚ) (a b tol : ℚ) (max_iter : ℤ) :
    (Except Unit (Option ℚ × ℕ × String)) × ℕ :=
  if a ≥ b then (Except.ok (none, 0, invalidBracketMsg), 0)
  else if tol ≤ 0 then (Except.ok (none, 0, invalidTolMsg), 0)
  else
    let fa := f a
    let fb := f b
    if |fa| < tol then (Except.ok (some a, 0, lowerBoundMsg), 2)
    else if |fb| < tol then (Except.ok (some b, 0, upperBoundMsg), 2)
    else if fa * fb > 0 then (Except.ok (none, 0, noSignChangeMsg), 2)
    else
      ((bisectLoop f tol max_iter max_iter.toNat 1 (a, b, fa, fb) none).1,
       (bisectLoop f tol max_iter max_iter.toNat 1 (a, b, fa, fb) none).2 + 2)

/-- The duplicate check and insertion of `find_all_roots` (app.py lines
105-115): a new root within `tol` of an already-accepted root is discarded,
otherwise it is appended together with its log line. -/
def insertRoot (tol : ℚ) (roots : List ℚ) (msgs : List String) (root : ℚ) (status : String) :
    List ℚ × List String :=
  if roots.any (fun er => decide (|root - er| < tol)) then (roots, msgs)
  else (roots ++ [root], msgs ++ [rootMsg (roots.length + 1) root status])

/-- The `while x_current < x_max` scan loop of `find_all_roots` (app.py lines
95-117), with fuel.  Result `none` models divergence (fuel exhausted while
the loop guard still holds); `some (Except.error (), cnt)` models an
exception propagating out of `bisection_method`; otherwise the accumulated
roots and per-root messages are returned with the total evaluation count. -/
def scanLoop (f : ℚ → ℚ) (x_max step tol : ℚ) (mi : ℤ) :
    ℕ → ℚ → List ℚ → List String → ℕ →
    Option ((Except Unit (List ℚ × List String)) × ℕ)
  | 0, x_current, roots, msgs, cnt =>
      if x_current < x_max then none else some (Except.ok (roots, msgs), cnt)
  | fuel + 1, x_current, roots, msgs, cnt =>
      if x_current < x_max then
        let x_next := min (x_current + step) x_max
        if f x_current * f x_next ≤ 0 then
          match bisection_method f x_current x_next tol mi with
          | (Except.error e, c) => some (Except.error e, cnt + 2 + c)
          | (Except.ok (none, _, _), c) =>
              scanLoop f x_max step tol mi fuel x_next roots msgs (cnt + 2 + c)
          | (Except.ok (some root, _, status), c) =>
              scanLoop f x_max step tol mi fuel x_next
                (insertRoot tol roots msgs root status).1
                (insertRoot tol roots msgs root status).2 (cnt + 2 + c)
        else scanLoop f x_max step tol mi fuel x_next roots msgs (cnt + 2)
      else some (Except.ok (roots, msgs), cnt)

/-- Embedding of `find_all_roots` (app.py lines 87-124).  The fuel
`⌈(x_max - x_min)/step⌉.toNat` is exactly the number of iterations the
source's while-loop performs when `step > 0` (proved below); it is `0`
whenever `step ≤ 0` and `x_min < x_max`, in which case the source loop
never terminates and the embedding returns the divergence marker `none`. -/
def find_all_roots (f : ℚ → ℚ) (x_min x_max step tol : ℚ) (mi : ℤ) :
    Option ((Except Unit (List ℚ × List String)) × ℕ) :=
  match scanLoop f x_max step tol mi (⌈(x_max - x_min) / step⌉).toNat x_min [] [] 0 with
  | some (Except.ok (roots, msgs), cnt) =>
      if roots = [] then some (Except.ok (roots, noRootsMsg :: msgs), cnt)
      else some (Except.ok (roots, foundMsg roots.length x_min x_max :: msgs), cnt)
  | other => other

/-- Separation predicate used by the dedup invariant: `x` and `y` are at
least `tol` apart. -/
def sep (tol : ℚ) (x y : ℚ) : Prop := tol ≤ |x - y|

/-- Whether a scanner outcome is a normal return (terminated, no exception). -/
def scanOk : Option ((Except Unit (List ℚ × List String)) × ℕ) → Bool
  | some (Except.ok _, _) => true
  | _ => false

/-- Total number of `f`-evaluations recorded in a scanner outcome. -/
def scanCount : Option ((Except Unit (List ℚ × List String)) × ℕ) → ℕ
  | some (_, c) => c
  | none => 0

/-- Concrete test function `x ↦ x - 1/3`, whose root is never hit exactly by
binary-rational bisection midpoints. -/
def fshift (x : ℚ) : ℚ := x - 1/3

/-- The midpoint of a bracket `(a, b)` with `a ≤ b` lies between `a` and `b`. -/
theorem midpt_between {s : ℚ × ℚ × ℚ × ℚ} (h : s.1 ≤ s.2.1) :
    s.1 ≤ midpt s ∧ midpt s ≤ s.2.1 := by
  unfold midpt
  constructor <;> linarith

/-- A bracket-update step keeps the bracket ordered and inside `[lo, hi]`. -/
theorem bisectStep_bounds (f : ℚ → ℚ) {lo hi : ℚ} {s : ℚ × ℚ × ℚ × ℚ}
    (h1 : lo ≤ s.1) (h2 : s.1 ≤ s.2.1) (h3 : s.2.1 ≤ hi) :
    lo ≤ (bisectStep f s).1 ∧ (bisectStep f s).1 ≤ (bisectStep f s).2.1 ∧
      (bisectStep f s).2.1 ≤ hi := by
  have hm := midpt_between h2
  unfold midpt at hm
  unfold bisectStep
  simp only []
  split
  · exact ⟨h1, hm.1, hm.2.trans h3⟩
  · exact ⟨h1.trans hm.1, hm.2, h3⟩

/-- The bisection loop performs at most `fuel` evaluations of `f`. -/
theorem bisectLoop_count_le (f : ℚ → ℚ) (tol : ℚ) (mi : ℤ) :
    ∀ fuel k s l, (bisectLoop f tol mi fuel k s l).2 ≤ fuel := by
  intro fuel
  induction fuel with
  | zero => intro k s l; cases l <;> simp [bisectLoop]
  | succ n ih =>
      intro k s l
      simp only [bisectLoop]
      split
      · simp
      · simpa using Nat.add_le_add_right (ih (k + 1) (bisectStep f s) (some (midpt s))) 1

/-- When the loop has fuel (or a midpoint was already assigned) it returns
the `(some root, iterations, message)` shape, never the exception. -/
theorem bisectLoop_ok (f : ℚ → ℚ) (tol : ℚ) (mi : ℤ) :
    ∀ fuel k s l, (l = none → 0 < fuel) →
      ∃ r n m, (bisectLoop f tol mi fuel k s l).1 = Except.ok (some r, n, m) := by
  intro fuel
  induction fuel with
  | zero =>
      intro k s l h
      cases l with
      | none => exact absurd (h rfl) (by simp)
      | some c => exact ⟨c, mi.toNat, maxIterMsg, rfl⟩
  | succ n ih =>
      intro k s l _
      simp only [bisectLoop]
      split
      · exact ⟨midpt s, k, convergedMsg k, rfl⟩
      · exact ih (k + 1) (bisectStep f s) (some (midpt s)) (by simp)

/-- Every root the loop can return lies in `[lo, hi]`, provided the current
bracket and the last assigned midpoint do. -/
theorem bisectLoop_mem (f : ℚ → ℚ) (tol : ℚ) (mi : ℤ) (lo hi : ℚ) :
    ∀ fuel k s l, lo ≤ s.1 → s.1 ≤ s.2.1 → s.2.1 ≤ hi →
      (∀ c, l = some c → lo ≤ c ∧ c ≤ hi) →
      ∀ r n m, (bisectLoop f tol mi fuel k s l).1 = Except.ok (some r, n, m) →
        lo ≤ r ∧ r ≤ hi := by
  intro fuel
  induction fuel with
  | zero =>
      intro k s l _ _ _ hl r n m hr
      cases l with
      | none => simp [bisectLoop] at hr
      | some c =>
          simp only [bisectLoop] at hr
          rcases (by simpa using hr : c = r ∧ mi.toNat = n ∧ maxIterMsg = m) with ⟨rfl, -, -⟩
          exact hl c rfl
  | succ n ih =>
      intro k s l h1 h2 h3 hl r n' m hr
      have hm := midpt_between h2
      simp only [bisectLoop] at hr
      split at hr
      · rcases (by simpa using hr : midpt s = r ∧ k = n' ∧ convergedMsg k = m) with ⟨rfl, -, -⟩
        exact ⟨h1.trans hm.1, hm.2.trans h3⟩
      · have hb := bisectStep_bounds f h1 h2 h3
        exact ih (k + 1) (bisectStep f s) (some (midpt s)) hb.1 hb.2.1 hb.2.2
          (by
            intro c hc
            cases Option.some.inj hc
            exact ⟨h1.trans hm.1, hm.2.trans h3⟩) r n' m hr

/-- Any `(some root, ...)` result of the loop whose message is not the
max-iteration fallback message satisfies `|f root| < tol`. -/
theorem bisectLoop_conv (f : ℚ → ℚ) (tol : ℚ) (mi : ℤ) :
    ∀ fuel k s l r n m, (bisectLoop f tol mi fuel k s l).1 = Except.ok (some r, n, m) →
      m ≠ maxIterMsg → |f r| < tol := by
  intro fuel
  induction fuel with
  | zero =>
      intro k s l r n m hr hm
      cases l with
      | none => simp [bisectLoop] at hr
      | some c =>
          simp only [bisectLoop] at hr
          rcases (by simpa using hr : c = r ∧ mi.toNat = n ∧ maxIterMsg = m) with ⟨-, -, h⟩
          exact absurd h.symm hm
  | succ n' ih =>
      intro k s l r n m hr hm
      simp only [bisectLoop] at hr
      split at hr
      · rcases (by simpa using hr : midpt s = r ∧ k = n ∧ convergedMsg k = m) with ⟨rfl, -, -⟩
        assumption
      · exact ih (k + 1) (bisectStep f s) (some (midpt s)) r n m hr hm

/-- When no midpoint within the fuel budget is within tolerance, the loop
runs its whole budget and returns the last midpoint, the source's
`max_iter` iteration count, and the fallback message; it evaluates `f`
exactly `fuel` times. -/
theorem bisectLoop_maxed (f : ℚ → ℚ) (tol : ℚ) (mi : ℤ) :
    ∀ fuel k s l, 0 < fuel →
      (∀ j < fuel, ¬ |f (midpt ((bisectStep f)^[j] s))| < tol) →
      bisectLoop f tol mi fuel k s l =
        (Except.ok (some (midpt ((bisectStep f)^[fuel - 1] s)), mi.toNat, maxIterMsg), fuel) := by
  intro fuel
  induction fuel with
  | zero => intro k s l h; exact absurd h (by simp)
  | succ n ih =>
      intro k s l _ hmid
      have h0 : ¬ |f (midpt s)| < tol := by simpa using hmid 0 (Nat.succ_pos n)
      rcases Nat.eq_zero_or_pos n with rfl | hn
      · simp only [bisectLoop, h0, if_false, Function.iterate_zero, id]
        rfl
      · have ihn := ih (k + 1) (bisectStep f s) (some (midpt s)) hn
          (by
            intro j hj
            have := hmid (j + 1) (Nat.succ_lt_succ hj)
            simpa [Function.iterate_succ_apply] using this)
        simp only [bisectLoop, h0, if_false, ihn]
        have : (bisectStep f)^[n - 1] (bisectStep f s) = (bisectStep f)^[n + 1 - 1] s := by
          rw [Nat.succ_sub_one, ← Function.iterate_succ_apply, Nat.succ_eq_add_one,
            Nat.sub_add_cancel hn]
        rw [this]

/-- Inserting a root through the dedup check preserves pairwise
`tol`-separation of the accepted roots. -/
theorem insertRoot_pairwise {tol : ℚ} {roots : List ℚ} (msgs : List String)
    (root : ℚ) (status : String) (h : List.Pairwise (sep tol) roots) :
    List.Pairwise (sep tol) (insertRoot tol roots msgs root status).1 := by
  unfold insertRoot
  split
  · exact h
  · next hany =>
      rw [List.pairwise_append]
      refine ⟨h, List.pairwise_singleton .., ?_⟩
      intro x hx y hy
      rcases List.mem_singleton.mp hy with rfl
      have := (List.any_eq_false.mp (Bool.not_eq_true _ ▸ hany)) x hx
      have hge : ¬ |y - x| < tol := by simpa using this
      unfold sep
      rw [abs_sub_comm]
      exact not_lt.mp hge

/-- The scan loop preserves pairwise `tol`-separation of the accepted roots:
whenever it returns normally, the returned root list is pairwise separated
provided the incoming one was. -/
theorem scanLoop_pairwise (f : ℚ → ℚ) (x_max step tol : ℚ) (mi : ℤ) :
    ∀ fuel x roots msgs cnt roots' msgs' cnt',
      List.Pairwise (sep tol) roots →
      scanLoop f x_max step tol mi fuel x roots msgs cnt =
        some (Except.ok (roots', msgs'), cnt') →
      List.Pairwise (sep tol) roots' := by
  intro fuel
  induction fuel with
  | zero =>
      intro x roots msgs cnt roots' msgs' cnt' hp hs
      simp only [scanLoop] at hs
      split at hs
      · exact absurd hs (by simp)
      · rcases (by simpa using hs : (roots = roots' ∧ msgs = msgs') ∧ cnt = cnt') with ⟨⟨rfl, -⟩, -⟩
        exact hp
  | succ n ih =>
      intro x roots msgs cnt roots' msgs' cnt' hp hs
      simp only [scanLoop] at hs
      split at hs
      · split at hs
        · split at hs
          · exact absurd hs (by simp)
          · exact ih _ _ _ _ _ _ _ hp hs
          · next root _ status _ _ =>
              exact ih _ _ _ _ _ _ _ (insertRoot_pairwise msgs root status hp) hs
        · exact ih _ _ _ _ _ _ _ hp hs
      · rcases (by simpa using hs : (roots = roots' ∧ msgs = msgs') ∧ cnt = cnt') with ⟨⟨rfl, -⟩, -⟩
        exact hp

/-- While the loop guard holds and the step is positive, the remaining
iteration count `⌈(x_max - x)/step⌉.toNat` is positive. -/
theorem measure_pos {x x_max step : ℚ} (hstep : 0 < step) (hx : x < x_max) :
    0 < (⌈(x_max - x) / step⌉).toNat := by
  have h1 : 0 < (x_max - x) / step := div_pos (by linarith) hstep
  have h2 : 0 < ⌈(x_max - x) / step⌉ := Int.ceil_pos.mpr h1
  omega

/-- Advancing the scan from `x` to `min (x + step) x_max` strictly decreases
the remaining iteration count. -/
theorem measure_decr {x x_max step : ℚ} (hstep : 0 < step) (hx : x < x_max) :
    (⌈(x_max - min (x + step) x_max) / step⌉).toNat + 1 ≤ (⌈(x_max - x) / step⌉).toNat := by
  have hpos := measure_pos hstep hx
  rcases le_total x_max (x + step) with h | h
  · rw [min_eq_right h, sub_self, zero_div, Int.ceil_zero]
    omega
  · rw [min_eq_left h]
    have he : (x_max - (x + step)) / step = (x_max - x) / step - 1 := by
      rw [show x_max - (x + step) = (x_max - x) - step by ring, sub_div,
        div_self (ne_of_gt hstep)]
    rw [he, show (1 : ℚ) = ((1 : ℤ) : ℚ) by norm_num, Int.ceil_sub_int]
    omega

/-- For any arguments with `max_iter ≥ 1` the solver returns normally (no
exception) and evaluates `f` at most `max_iter + 2` times. -/
theorem bisection_method_ok_count (f : ℚ → ℚ) (a b tol : ℚ) (mi : ℤ) (hmi : 1 ≤ mi) :
    ∃ t c, bisection_method f a b tol mi = (Except.ok t, c) ∧ c ≤ mi.toNat + 2 := by
  unfold bisection_method
  split
  · exact ⟨_, _, rfl, by omega⟩
  · split
    · exact ⟨_, _, rfl, by omega⟩
    · simp only []
      split
      · exact ⟨_, _, rfl, by omega⟩
      · split
        · exact ⟨_, _, rfl, by omega⟩
        · split
          · exact ⟨_, _, rfl, by omega⟩
          · obtain ⟨r, n, m, hr⟩ := bisectLoop_ok f tol mi mi.toNat 1 (a, b, f a, f b) none
              (fun _ => by omega)
            have hc := bisectLoop_count_le f tol mi mi.toNat 1 (a, b, f a, f b) none
            exact ⟨(some r, n, m), _, by rw [← hr], by omega⟩

/-- When the loop guard already fails, the scan loop returns its accumulated
state unchanged, for any fuel. -/
theorem scanLoop_guard_false (f : ℚ → ℚ) (x_max step tol : ℚ) (mi : ℤ)
    (fuel : ℕ) (x : ℚ) (roots : List ℚ) (msgs : List String) (cnt : ℕ)
    (hx : ¬ x < x_max) :
    scanLoop f x_max step tol mi fuel x roots msgs cnt =
      some (Except.ok (roots, msgs), cnt) := by
  cases fuel <;> simp [scanLoop, hx]

/-- With positive step and `max_iter ≥ 1`, and fuel at least the remaining
iteration count, the scan loop returns normally and adds at most
`⌈(x_max - x)/step⌉.toNat * (max_iter + 4)` evaluations of `f`. -/
theorem scanLoop_ok_bound (f : ℚ → ℚ) (x_max step tol : ℚ) (mi : ℤ)
    (hstep : 0 < step) (hmi : 1 ≤ mi) :
    ∀ fuel x roots msgs cnt, (⌈(x_max - x) / step⌉).toNat ≤ fuel →
      ∃ roots' msgs' cnt',
        scanLoop f x_max step tol mi fuel x roots msgs cnt =
          some (Except.ok (roots', msgs'), cnt') ∧
        cnt' ≤ cnt + (⌈(x_max - x) / step⌉).toNat * (mi.toNat + 4) := by
  intro fuel
  induction fuel with
  | zero =>
      intro x roots msgs cnt hfuel
      by_cases hx : x < x_max
      · exact absurd hfuel (by have := measure_pos hstep hx; omega)
      · exact ⟨roots, msgs, cnt, scanLoop_guard_false f x_max step tol mi 0 x roots msgs cnt hx,
          Nat.le_add_right ..⟩
  | succ n ih =>
      intro x roots msgs cnt hfuel
      by_cases hx : x < x_max
      · have hdec := measure_decr hstep hx
        set x_next := min (x + step) x_max with hxn
        have hfuel' : (⌈(x_max - x_next) / step⌉).toNat ≤ n := by omega
        obtain ⟨t, c, ht, hc⟩ := bisection_method_ok_count f x x_next tol mi hmi
        have key : ∀ roots0 msgs0 c0, c0 ≤ mi.toNat + 2 →
            ∃ roots' msgs' cnt',
              scanLoop f x_max step tol mi n x_next roots0 msgs0 (cnt + 2 + c0) =
                some (Except.ok (roots', msgs'), cnt') ∧
              cnt' ≤ cnt + (⌈(x_max - x) / step⌉).toNat * (mi.toNat + 4) := by
          intro roots0 msgs0 c0 hc0
          obtain ⟨roots', msgs', cnt', hs, hb⟩ := ih x_next roots0 msgs0 (cnt + 2 + c0) hfuel'
          refine ⟨roots', msgs', cnt', hs, ?_⟩
          set M1 := (⌈(x_max - x_next) / step⌉).toNat
          set M2 := (⌈(x_max - x) / step⌉).toNat
          calc cnt' ≤ cnt + 2 + c0 + M1 * (mi.toNat + 4) := hb
            _ ≤ cnt + (mi.toNat + 4) + M1 * (mi.toNat + 4) := by omega
            _ = cnt + (M1 + 1) * (mi.toNat + 4) := by ring
            _ ≤ cnt + M2 * (mi.toNat + 4) := by
                have : (M1 + 1) * (mi.toNat + 4) ≤ M2 * (mi.toNat + 4) :=
                  Nat.mul_le_mul_right _ (by omega)
                omega
        simp only [scanLoop, if_pos hx, ← hxn]
        split
        · rw [ht]
          rcases t with ⟨root?, iters, status⟩
          rcases root? with - | root
          · exact key roots msgs c hc
          · exact key _ _ c hc
        · exact key roots msgs 0 (by omega)
      · exact ⟨roots, msgs, cnt,
          scanLoop_guard_false f x_max step tol mi (n + 1) x roots msgs cnt hx,
          Nat.le_add_right ..⟩

/-- C1: for every function `f`, bounds `a < b` with `f a * f b ≤ 0`,
tolerance `tol > 0` and `max_iter ≥ 1`, the solver returns a root (not the
no-root sentinel `none`), and every root it can return — endpoint,
converged midpoint or max-iteration fallback midpoint — lies in `[a, b]`. -/
theorem solver_root_in_bracket (f : ℚ → ℚ) (a b tol : ℚ) (mi : ℤ)
    (hab : a < b) (hsign : f a * f b ≤ 0) (htol : 0 < tol) (hmi : 1 ≤ mi) :
    (∃ r n m, (bisection_method f a b tol mi).1 = Except.ok (some r, n, m)) ∧
    (∀ r n m, (bisection_method f a b tol mi).1 = Except.ok (some r, n, m) →
      a ≤ r ∧ r ≤ b) := by
  have hnab : ¬ a ≥ b := not_le.mpr hab
  have hntol : ¬ tol ≤ 0 := not_le.mpr htol
  have hnsign : ¬ f a * f b > 0 := not_lt.mpr hsign
  unfold bisection_method
  rw [if_neg hnab, if_neg hntol]
  simp only []
  by_cases hfa : |f a| < tol
  · rw [if_pos hfa]
    refine ⟨⟨a, 0, lowerBoundMsg, rfl⟩, ?_⟩
    intro r n m h
    rcases (by simpa using h : a = r ∧ (0 : ℕ) = n ∧ lowerBoundMsg = m) with ⟨rfl, -, -⟩
    exact ⟨le_refl _, le_of_lt hab⟩
  · rw [if_neg hfa]
    by_cases hfb : |f b| < tol
    · rw [if_pos hfb]
      refine ⟨⟨b, 0, upperBoundMsg, rfl⟩, ?_⟩
      intro r n m h
      rcases (by simpa using h : b = r ∧ (0 : ℕ) = n ∧ upperBoundMsg = m) with ⟨rfl, -, -⟩
      exact ⟨le_of_lt hab, le_refl _⟩
    · rw [if_neg hfb, if_neg hnsign]
      refine ⟨bisectLoop_ok f tol mi mi.toNat 1 (a, b, f a, f b) none (fun _ => by omega), ?_⟩
      intro r n m h
      exact bisectLoop_mem f tol mi a b mi.toNat 1 (a, b, f a, f b) none
        (le_refl a) (le_of_lt hab) (le_refl b) (fun c hc => nomatch hc) r n m h

/-- Witness for C1 at `f = id`, bracket `[-1, 1]`, `tol = 1/2`,
`max_iter = 5`: the returned root `0` lies inside the bracket. -/
theorem solver_root_in_bracket_witness : (-1 : ℚ) ≤ 0 ∧ (0 : ℚ) ≤ 1 :=
  (solver_root_in_bracket id (-1) 1 (1/2) 5 (by with_unfolding_all decide) (by with_unfolding_all decide) (by with_unfolding_all decide)
    (by with_unfolding_all decide)).2 0 1 (convergedMsg 1) (by with_unfolding_all decide)

/-- C2: whenever the solver returns a root by any path other than the
max-iteration fallback (identified by its message), the root satisfies
`|f r| < tol` (strict comparison). -/
theorem solver_convergence_tolerance (f : ℚ → ℚ) (a b tol : ℚ) (mi : ℤ)
    (r : ℚ) (n : ℕ) (m : String)
    (h : (bisection_method f a b tol mi).1 = Except.ok (some r, n, m))
    (hm : m ≠ maxIterMsg) : |f r| < tol := by
  unfold bisection_method at h
  split at h
  · exact absurd h (by simp)
  · split at h
    · exact absurd h (by simp)
    · simp only [] at h
      split at h
      · next hfa =>
          rcases (by simpa using h : a = r ∧ (0 : ℕ) = n ∧ lowerBoundMsg = m) with ⟨rfl, -, -⟩
          exact hfa
      · split at h
        · next hfb =>
            rcases (by simpa using h : b = r ∧ (0 : ℕ) = n ∧ upperBoundMsg = m) with ⟨rfl, -, -⟩
            exact hfb
        · split at h
          · exact absurd h (by simp)
          · exact bisectLoop_conv f tol mi mi.toNat 1 (a, b, f a, f b) none r n m h hm

/-- Witness for C2 at `f = id`, bracket `[-1, 1]`, `tol = 1/2`: the
converged root `0` satisfies `|f 0| < 1/2`. -/
theorem solver_convergence_tolerance_witness : |id (0 : ℚ)| < 1/2 :=
  solver_convergence_tolerance id (-1) 1 (1/2) 5 0 1 (convergedMsg 1) (by with_unfolding_all decide) (by with_unfolding_all decide)

/-- C3: the solver validates before evaluating `f`, bracket order first and
short-circuiting — `a ≥ b` yields the no-root sentinel, 0 iterations and
the invalid-bracket message regardless of `tol`; otherwise `tol ≤ 0` yields
the invalid-tolerance message.  In both cases the result records 0
evaluations of `f` (and is independent of `f` altogether). -/
theorem solver_validation_order (f : ℚ → ℚ) (a b tol : ℚ) (mi : ℤ) :
    (a ≥ b → bisection_method f a b tol mi = (Except.ok (none, 0, invalidBracketMsg), 0)) ∧
    (a < b → tol ≤ 0 →
      bisection_method f a b tol mi = (Except.ok (none, 0, invalidTolMsg), 0)) := by
  constructor
  · intro h
    unfold bisection_method
    rw [if_pos h]
  · intro h1 h2
    unfold bisection_method
    rw [if_neg (by exact not_le.mpr h1), if_pos h2]

/-- Witness for C3: the spec's Scenario 3 input `a = 1, b = -1` (with an
invalid tolerance as well) hits the bracket check; a valid bracket with
`tol = -1` hits the tolerance check. -/
theorem solver_validation_order_witness :
    bisection_method id 1 (-1) (-1) 200 = (Except.ok (none, 0, invalidBracketMsg), 0) ∧
    bisection_method id (-1) 1 (-1) 200 = (Except.ok (none, 0, invalidTolMsg), 0) :=
  ⟨(solver_validation_order id 1 (-1) (-1) 200).1 (by with_unfolding_all decide),
   (solver_validation_order id (-1) 1 (-1) 200).2 (by with_unfolding_all decide) (by with_unfolding_all decide)⟩

/-- C4: with a valid bracket and tolerance, `|f a| < tol` makes the solver
return `a` immediately with 0 iterations (lower bound checked first);
otherwise `|f b| < tol` makes it return `b` with 0 iterations.  The
evaluation count 2 shows only the two endpoint evaluations happen: the
main loop is never entered. -/
theorem solver_endpoint_return (f : ℚ → ℚ) (a b tol : ℚ) (mi : ℤ)
    (hab : a < b) (htol : 0 < tol) :
    (|f a| < tol →
      bisection_method f a b tol mi = (Except.ok (some a, 0, lowerBoundMsg), 2)) ∧
    (¬ |f a| < tol → |f b| < tol →
      bisection_method f a b tol mi = (Except.ok (some b, 0, upperBoundMsg), 2)) := by
  have hnab : ¬ a ≥ b := not_le.mpr hab
  have hntol : ¬ tol ≤ 0 := not_le.mpr htol
  constructor
  · intro hfa
    unfold bisection_method
    rw [if_neg hnab, if_neg hntol]
    simp only []
    rw [if_pos hfa]
  · intro hfa hfb
    unfold bisection_method
    rw [if_neg hnab, if_neg hntol]
    simp only []
    rw [if_neg hfa, if_pos hfb]

/-- Witness for C4: `id` on `[0, 1]` returns the lower bound `0`; `id` on
`[-1, 0]` returns the upper bound `0`; both with 0 iterations and exactly
the two endpoint evaluations. -/
theorem solver_endpoint_return_witness :
    bisection_method id 0 1 (1/2) 200 = (Except.ok (some 0, 0, lowerBoundMsg), 2) ∧
    bisection_method id (-1) 0 (1/2) 200 = (Except.ok (some 0, 0, upperBoundMsg), 2) :=
  ⟨(solver_endpoint_return id 0 1 (1/2) 200 (by with_unfolding_all decide) (by with_unfolding_all decide)).1 (by with_unfolding_all decide),
   (solver_endpoint_return id (-1) 0 (1/2) 200 (by with_unfolding_all decide) (by with_unfolding_all decide)).2
     (by with_unfolding_all decide) (by with_unfolding_all decide)⟩

/-- C5: on a valid sign-changing bracket where no endpoint and no midpoint
of the first `max_iter` iterations is within tolerance, the solver still
returns a value — the last computed midpoint — with iteration count exactly
`max_iter` and the maximum-iterations message. -/
theorem solver_max_iter_fallback (f : ℚ → ℚ) (a b tol : ℚ) (mi : ℤ)
    (hab : a < b) (htol : 0 < tol) (hmi : 1 ≤ mi)
    (hfa : ¬ |f a| < tol) (hfb : ¬ |f b| < tol) (hsign : f a * f b ≤ 0)
    (hmid : ∀ j < mi.toNat, ¬ |f (midpt ((bisectStep f)^[j] (a, b, f a, f b)))| < tol) :
    (bisection_method f a b tol mi).1 =
      Except.ok (some (midpt ((bisectStep f)^[mi.toNat - 1] (a, b, f a, f b))),
        mi.toNat, maxIterMsg) := by
  have hnab : ¬ a ≥ b := not_le.mpr hab
  have hntol : ¬ tol ≤ 0 := not_le.mpr htol
  have hnsign : ¬ f a * f b > 0 := not_lt.mpr hsign
  unfold bisection_method
  rw [if_neg hnab, if_neg hntol]
  simp only []
  rw [if_neg hfa, if_neg hfb, if_neg hnsign,
    bisectLoop_maxed f tol mi mi.toNat 1 (a, b, f a, f b) none (by omega) hmid]

/-- Witness for C5: `x - 1/3` on `[0, 1]` with `tol = 1/100` and
`max_iter = 2` never converges (midpoints `1/2`, `1/4`), so the solver
returns the last midpoint with 2 iterations and the fallback message. -/
theorem solver_max_iter_fallback_witness :
    (bisection_method fshift 0 1 (1/100) 2).1 =
      Except.ok (some (midpt ((bisectStep fshift)^[(2 : ℤ).toNat - 1] (0, 1, fshift 0, fshift 1))),
        (2 : ℤ).toNat, maxIterMsg) :=
  solver_max_iter_fallback fshift 0 1 (1/100) 2 (by with_unfolding_all decide) (by with_unfolding_all decide) (by with_unfolding_all decide)
    (by with_unfolding_all decide) (by with_unfolding_all decide) (by with_unfolding_all decide) (by with_unfolding_all decide)

/-- C9: the solver never validates `max_iter`.  With a valid bracket and
tolerance, a confirmed sign change and neither endpoint within tolerance,
`max_iter ≤ 0` means the loop body never runs, and the final return reads
the midpoint variable before it was ever assigned: the call raises instead
of returning the `(root, iterations, message)` triple. -/
theorem solver_max_iter_unvalidated (f : ℚ → ℚ) (a b tol : ℚ) (mi : ℤ)
    (hab : a < b) (htol : 0 < tol) (hmi : mi ≤ 0)
    (hfa : ¬ |f a| < tol) (hfb : ¬ |f b| < tol) (hsign : ¬ f a * f b > 0) :
    (bisection_method f a b tol mi).1 = Except.error () := by
  have h0 : mi.toNat = 0 := by omega
  simp [bisection_method, not_le.mpr hab, not_le.mpr htol, hfa, hfb, hsign, h0, bisectLoop]

/-- Witness for C9: `id` on `[-1, 1]` with `tol = 1/2` and `max_iter = 0`
raises (modelled as the error outcome). -/
theorem solver_max_iter_unvalidated_witness :
    (bisection_method id (-1) 1 (1/2) 0).1 = Except.error () :=
  solver_max_iter_unvalidated id (-1) 1 (1/2) 0 (by with_unfolding_all decide) (by with_unfolding_all decide) (by with_unfolding_all decide)
    (by with_unfolding_all decide) (by with_unfolding_all decide) (by with_unfolding_all decide)

/-- Unfolding lemma: a normal scan-loop return determines the value of
`find_all_roots` — the summary line is prepended to the log, roots and
count pass through unchanged. -/
theorem find_all_roots_eq (f : ℚ → ℚ) (x_min x_max step tol : ℚ) (mi : ℤ)
    {roots0 : List ℚ} {msgs0 : List String} {c : ℕ}
    (hs : scanLoop f x_max step tol mi (⌈(x_max - x_min) / step⌉).toNat x_min [] [] 0 =
      some (Except.ok (roots0, msgs0), c)) :
    find_all_roots f x_min x_max step tol mi =
      some (Except.ok (roots0,
        (if roots0 = [] then noRootsMsg :: msgs0
         else foundMsg roots0.length x_min x_max :: msgs0)), c) := by
  unfold find_all_roots
  rw [hs]
  split
  case h_1 => simp_all; split <;> simp_all
  case h_2 => simp_all

/-- C6: the scanner's accepted roots are pairwise separated by at least
`tol`.  The first conjunct is the insertion-time invariant: any normal
return of the scan loop from a pairwise-separated accumulator is pairwise
separated (so the invariant holds after every insertion); the second
specialises it to the whole `find_all_roots` call, which starts from the
empty accumulator. -/
theorem scanner_dedup_separation (f : ℚ → ℚ) (x_min x_max step tol : ℚ) (mi : ℤ) :
    (∀ fuel x roots msgs cnt roots' msgs' cnt',
      List.Pairwise (sep tol) roots →
      scanLoop f x_max step tol mi fuel x roots msgs cnt =
        some (Except.ok (roots', msgs'), cnt') →
      List.Pairwise (sep tol) roots') ∧
    (∀ roots' msgs' cnt',
      find_all_roots f x_min x_max step tol mi = some (Except.ok (roots', msgs'), cnt') →
      List.Pairwise (sep tol) roots') := by
  refine ⟨scanLoop_pairwise f x_max step tol mi, ?_⟩
  intro roots' msgs' cnt' h
  rcases hs : scanLoop f x_max step tol mi (⌈(x_max - x_min) / step⌉).toNat x_min [] [] 0 with
    - | ⟨e, c⟩
  · unfold find_all_roots at h
    rw [hs] at h
    exact absurd h (by simp)
  · rcases e with e | ⟨roots0, msgs0⟩
    · unfold find_all_roots at h
      rw [hs] at h
      exact absurd h (by simp)
    · have hp := scanLoop_pairwise f x_max step tol mi _ x_min [] [] 0 roots0 msgs0 c
        List.Pairwise.nil hs
      rw [find_all_roots_eq f x_min x_max step tol mi hs] at h
      simp only [Option.some.injEq, Prod.mk.injEq, Except.ok.injEq] at h
      obtain ⟨⟨rfl, -⟩, -⟩ := h
      exact hp

/-- Witness for C6: scanning `id` over `[-1, 1]` with `step = 2`,
`tol = 1/2` accepts the single root `0`, which is trivially pairwise
separated. -/
theorem scanner_dedup_separation_witness : List.Pairwise (sep (1/2)) [(0 : ℚ)] :=
  (scanner_dedup_separation id (-1) 1 2 (1/2) 5).2 [0]
    ["Found 1 root(s) in range [-1, 1]", "Root 1: x = 0 | Converged after 1 iterations"] 5
    (by with_unfolding_all decide)

/-- C7 as amended: for positive `step`, positive `tol` and `max_iter ≥ 1`
the scanner terminates normally, and the total number of `f`-evaluations is
at most `⌈(x_max - x_min)/step⌉ * (max_iter + 4)` — each of the
`⌈(x_max - x_min)/step⌉` cells costs the scan's two endpoint evaluations
plus at most `max_iter + 2` solver evaluations, so the spec's bound of
`max_iter` evaluations per cell is off by the additive 4. -/
theorem scanner_eval_budget (f : ℚ → ℚ) (x_min x_max step tol : ℚ) (mi : ℤ)
    (hstep : 0 < step) (_htol : 0 < tol) (hmi : 1 ≤ mi) :
    scanOk (find_all_roots f x_min x_max step tol mi) = true ∧
    scanCount (find_all_roots f x_min x_max step tol mi) ≤
      (⌈(x_max - x_min) / step⌉).toNat * (mi.toNat + 4) := by
  obtain ⟨roots', msgs', cnt', hs, hb⟩ :=
    scanLoop_ok_bound f x_max step tol mi hstep hmi (⌈(x_max - x_min) / step⌉).toNat
      x_min [] [] 0 (le_refl _)
  rw [find_all_roots_eq f x_min x_max step tol mi hs]
  exact ⟨rfl, by simpa [scanCount] using hb⟩

/-- Witness for the amended C7 at `f = id` over `[-1, 1]`, `step = 2`,
`tol = 1/2`, `max_iter = 5`. -/
theorem scanner_eval_budget_witness :
    scanOk (find_all_roots id (-1) 1 2 (1/2) 5) = true ∧
    scanCount (find_all_roots id (-1) 1 2 (1/2) 5) ≤
      (⌈((1 : ℚ) - (-1)) / 2⌉).toNat * ((5 : ℤ).toNat + 4) :=
  scanner_eval_budget id (-1) 1 2 (1/2) 5 (by with_unfolding_all decide)
    (by with_unfolding_all decide) (by with_unfolding_all decide)

/-- Counterexample to C7 as stated: scanning `id` over `[-1, 1]` with
`step = 2`, `tol = 1/2`, `max_iter = 1` terminates normally but performs 5
evaluations of `f` (two scan endpoints, two solver endpoints, one
midpoint), exceeding the claimed bound
`⌈(x_max - x_min)/step⌉ * max_iter = 1`. -/
theorem scanner_eval_budget_cex :
    scanOk (find_all_roots id (-1) 1 2 (1/2) 1) = true ∧
    ¬ (scanCount (find_all_roots id (-1) 1 2 (1/2) 1) ≤
        (⌈((1 : ℚ) - (-1)) / 2⌉).toNat * (1 : ℤ).toNat) := by
  with_unfolding_all decide

/-- C8: the bisection loop halves the bracket exactly: `bisectStep` is the
loop's bracket update (second conjunct: one non-converged iteration of
`bisectLoop` is exactly one `bisectStep`), and `k` updates from the
original state `s = (a, b, fa, fb)` leave a bracket of width
`(b - a) / 2 ^ k` (first conjunct), the kept half always being `[a, c]` or
`[c, b]` with `c` the exact midpoint. -/
theorem bisection_halves_bracket (f : ℚ → ℚ) (tol : ℚ) (mi : ℤ)
    (s : ℚ × ℚ × ℚ × ℚ) (k : ℕ) :
    (((bisectStep f)^[k] s).2.1 - ((bisectStep f)^[k] s).1 = (s.2.1 - s.1) / 2 ^ k) ∧
    (∀ fuel k' l, ¬ |f (midpt s)| < tol →
      bisectLoop f tol mi (fuel + 1) k' s l =
        ((bisectLoop f tol mi fuel (k' + 1) (bisectStep f s) (some (midpt s))).1,
         (bisectLoop f tol mi fuel (k' + 1) (bisectStep f s) (some (midpt s))).2 + 1)) := by
  constructor
  · induction k generalizing s with
    | zero => simp
    | succ n ih =>
        rw [Function.iterate_succ_apply, ih (bisectStep f s)]
        have hw : (bisectStep f s).2.1 - (bisectStep f s).1 = (s.2.1 - s.1) / 2 := by
          unfold bisectStep
          simp only []
          split <;> (dsimp only; ring)
        rw [hw]
        ring
  · intro fuel k' l hn
    simp only [bisectLoop, if_neg hn]

/-- Witness for C8 at `f = fshift`, state `(0, 1, fshift 0, fshift 1)`: the
non-converged first iteration with `tol = 1/100` unfolds to one
`bisectStep` (the concrete instance of the second conjunct). -/
theorem bisection_halves_bracket_witness :
    bisectLoop fshift (1/100) 5 2 1 (0, 1, fshift 0, fshift 1) none =
      ((bisectLoop fshift (1/100) 5 1 2 (bisectStep fshift (0, 1, fshift 0, fshift 1))
          (some (midpt (0, 1, fshift 0, fshift 1)))).1,
       (bisectLoop fshift (1/100) 5 1 2 (bisectStep fshift (0, 1, fshift 0, fshift 1))
          (some (midpt (0, 1, fshift 0, fshift 1)))).2 + 1) :=
  (bisection_halves_bracket fshift (1/100) 5 (0, 1, fshift 0, fshift 1) 0).2 1 1 none
    (by with_unfolding_all decide)

/-- C10: whenever `x_min ≥ x_max` the scanner's loop body never executes:
it returns the empty root list, a log holding exactly the no-roots summary
message, and an evaluation count of 0 (`f` is never evaluated — the result
does not depend on `f`, `step`, `tol` or `max_iter` at all). -/
theorem scanner_empty_range (f : ℚ → ℚ) (x_min x_max step tol : ℚ) (mi : ℤ)
    (h : x_max ≤ x_min) :
    find_all_roots f x_min x_max step tol mi = some (Except.ok ([], [noRootsMsg]), 0) := by
  unfold find_all_roots
  rw [scanLoop_guard_false f x_max step tol mi _ x_min [] [] 0 (not_lt.mpr h)]
  rfl

/-- Witness for C10 at `x_min = 1 > -1 = x_max`. -/
theorem scanner_empty_range_witness :
    find_all_roots id 1 (-1) (1/100) (1/2) 5 = some (Except.ok ([], [noRootsMsg]), 0) :=
  scanner_empty_range id 1 (-1) (1/100) (1/2) 5 (by with_unfolding_all decide)

end EqSolver
